import Mathlib

/-!
Verification of the markdown processing module (`src/util/md/mod.ts`).

This file gives a shallow embedding of the markdown-processing module and
proves properties of it.  The module has two variants in the source file:

* `process` (hljs-based, synchronous): splits the document on `---`,
  optionally validates the frontmatter against a supplied schema,
  scans headings, renders HTML.
* `processMarkdown` (shiki-based, asynchronous): same shape, but the
  metadata split is guarded by `yaml && frontmatterSchema`.

Strings are modelled as Lean `String` / `List Char`.  All string
operations used by the source (`String.prototype.split`,
`String.prototype.trim`, `String.prototype.toLowerCase`, the regexes
`/^(#{1,6})\s*(.+)/`, `/^```/`, `/\s+/g`, `/[^\w-]+/g`) are embedded as
structurally recursive functions over `List Char` so that every
definition evaluates inside the kernel.

External collaborators (the `marked` renderer, `js-yaml`'s `load`, the
zod schema validator, the hljs/shiki highlighters) are black boxes per
the module boundary: they are taken as parameters of the embedded
functions.  The `html` field of the result record is produced entirely
by the external renderer and no claim concerns its contents, so the
embedded result record omits it.
-/

/-- The backtick character, code point 96 (used by the code-fence test). -/
def backtickChar : Char := Char.ofNat 96

/-- JS whitespace class `\s` / `trim`, restricted to the ASCII whitespace
characters: space, tab, line feed, carriage return, vertical tab, form feed. -/
def isJsWs (c : Char) : Bool :=
  c = ' ' || c = '\t' || c = '\n' || c = '\r' || c = '\x0b' || c = '\x0c'

/-- JS word-character class `\w`: ASCII letters, digits, underscore. -/
def isWordChar (c : Char) : Bool :=
  c.isAlpha || c.isDigit || c = '_'

/-- Embeds `String.prototype.trim`: drop whitespace from both ends. -/
def jsTrim (l : List Char) : List Char :=
  ((l.dropWhile isJsWs).reverse.dropWhile isJsWs).reverse

/-- Embeds `String.prototype.toLowerCase` on ASCII text; `Char.toLower`
lowers exactly the basic latin letters, as the source's inputs are ASCII. -/
def jsToLower (l : List Char) : List Char :=
  l.map Char.toLower

/-- Embeds `.replace(/\s+/g, "-")`: each maximal run of whitespace becomes a
single hyphen.  The flag records whether the previous character was
whitespace (i.e. whether we are inside a run that already emitted its hyphen). -/
def collapseWsAux : Bool → List Char → List Char
  | _, [] => []
  | prevWs, c :: rest =>
    if isJsWs c then
      (if prevWs then [] else ['-']) ++ collapseWsAux true rest
    else
      c :: collapseWsAux false rest

/-- Embeds `.replace(/[^\w-]+/g, "")`: remove every character that is neither
a word character nor a hyphen. -/
def stripNonWord (l : List Char) : List Char :=
  l.filter (fun c => isWordChar c || c = '-')

/-- The heading-id derivation from the source:
`name.trim().toLowerCase().replace(/\s+/g, "-").replace(/[^\w-]+/g, "")`. -/
def slugify (name : List Char) : List Char :=
  stripNonWord (collapseWsAux false (jsToLower (jsTrim name)))

/-- String-level wrapper of `slugify`. -/
def slugifyStr (s : String) : String :=
  String.mk (slugify s.data)

/-- Embeds `headingRegex.exec(line)` for `/^(#{1,6})\s*(.+)/` on a
newline-free line, with JS backtracking semantics, returning
(group 1 length, group 2) on a match:

* `#{1,6}` greedily takes `min k 6` of the `k` leading hashes, backtracking
  one at a time when the rest of the pattern cannot match;
* `\s*` greedily takes whitespace, backtracking so that `(.+)` keeps at
  least one character;
* `(.+)` takes everything remaining (the line holds no newline).

So: with `n := min k 6` and `r` the text after the first `n` hashes, if `r`
is nonempty the match succeeds with level `n` and name `r` minus its
whitespace prefix (capped so the name keeps one character); if `r` is empty
(the line is `k ≤ 6` hashes only) the hash group backtracks once, leaving a
single hash as the name, which needs `k ≥ 2`. -/
def headingOf (t : List Char) : Option (Nat × List Char) :=
  let k := (t.takeWhile (fun c => c = '#')).length
  if k = 0 then none
  else
    let n := min k 6
    let r := t.drop n
    if r.isEmpty then
      if 2 ≤ k then some (k - 1, ['#']) else none
    else
      some (n, r.drop (min (r.takeWhile isJsWs).length (r.length - 1)))

/-- A scanned heading (`interface Heading` / `MdHeading`). -/
structure Heading where
  id : String
  level : Nat
  name : String
deriving DecidableEq, Repr

/-- Embeds `codeFenceRegex.test(line)` for `/^```/` on the trimmed line. -/
def isFenceLine (t : List Char) : Bool :=
  t.take 3 = [backtickChar, backtickChar, backtickChar]

/-- The loop body of `getHeadings`: trim the line, toggle the fence flag on a
fence line, skip lines inside a fence, otherwise run the heading regex and,
when both captured groups are truthy (`if (level && name)`), push the heading
with the slugified id. -/
def scanAux : Bool → List (List Char) → List Heading
  | _, [] => []
  | inCodeFence, line :: rest =>
    let t := jsTrim line
    if isFenceLine t then
      scanAux (!inCodeFence) rest
    else if inCodeFence then
      scanAux inCodeFence rest
    else
      match headingOf t with
      | some (level, name) =>
        if level != 0 && !name.isEmpty then
          ⟨String.mk (slugify name), level, String.mk name⟩ :: scanAux inCodeFence rest
        else
          scanAux inCodeFence rest
      | none => scanAux inCodeFence rest

/-- Embeds `md.split("\n")`: split on each newline character. -/
def splitNewlinesAux (acc : List Char) : List Char → List (List Char)
  | [] => [acc.reverse]
  | '\n' :: rest => acc.reverse :: splitNewlinesAux [] rest
  | c :: rest => splitNewlinesAux (c :: acc) rest

/-- String-level form of `md.split("\n")`. -/
def splitNewlines (md : String) : List (List Char) :=
  splitNewlinesAux [] md.data

/-- Embeds `getHeadings` (identical in both source variants): split into
lines and scan them with the fence-aware loop, starting outside a fence. -/
def getHeadings (md : String) : List Heading :=
  scanAux false (splitNewlines md)

/-- Embeds `md.split("---")`: split on each leftmost non-overlapping
occurrence of the three-character delimiter. -/
def splitDashesAux (acc : List Char) : List Char → List (List Char)
  | '-' :: '-' :: '-' :: rest => acc.reverse :: splitDashesAux [] rest
  | [] => [acc.reverse]
  | c :: rest => splitDashesAux (c :: acc) rest

/-- String-level form of `md.split("---")`. -/
def splitDashes (md : String) : List (List Char) :=
  splitDashesAux [] md.data

/-- Embeds `split.slice(2).join("---")`: rejoin the segments with the
delimiter as separator. -/
def joinDashes : List (List Char) → List Char
  | [] => []
  | [x] => x
  | x :: y :: rest => x ++ '-' :: '-' :: '-' :: joinDashes (y :: rest)

/-- JS truthiness of `split.at(1)`: defined and a nonempty string. -/
def truthySeg : Option (List Char) → Bool
  | none => false
  | some s => !s.isEmpty

/-- Result of the external schema validator's non-throwing entry point
(`frontmatterSchema.safeParse`): either a typed value or a list of issues. -/
inductive SafeParseResult (I V : Type) where
  | success (value : V)
  | failure (issues : List I)
deriving DecidableEq, Repr

/-- The two `throw new Error(...)` sites of the module, distinguished:
`noYaml` is the missing-metadata error (no yaml found), and
`invalidFrontmatter` is the validation error, carrying `issues[0]`. -/
inductive ProcessError (I : Type) where
  | noYaml
  | invalidFrontmatter (issue : Option I)
deriving DecidableEq, Repr

/-- The result record (`Data` / `MdData`), without the externally produced
`html` string.  `frontmatter = none` models an absent / empty-object
frontmatter. -/
structure ProcessData (V : Type) where
  article : String
  headings : List Heading
  frontmatter : Option V
deriving DecidableEq, Repr

/-- Embeds `getFrontmatter` (identical in both source variants): decode the
yaml text with the external loader, validate with the external schema, and
on failure throw carrying the first issue (`parsed.error.issues[0]`). -/
def getFrontmatter {Y I V : Type} (load : String → Y)
    (safeParse : Y → SafeParseResult I V) (yaml : String) :
    Except (ProcessError I) V :=
  match safeParse (load yaml) with
  | .success v => .ok v
  | .failure issues => .error (.invalidFrontmatter issues.head?)

/-- Embeds the hljs-based `process`: split on `---`, take segment 1 as the
candidate yaml, and if it is truthy the article is the remaining segments
rejoined, else the whole document.  When a schema is supplied, a falsy yaml
throws the missing-metadata error, otherwise the yaml is validated. -/
def process {Y I V : Type} (load : String → Y)
    (frontmatterSchema : Option (Y → SafeParseResult I V)) (md : String) :
    Except (ProcessError I) (ProcessData V) :=
  let split := splitDashes md
  let yaml := split.get? 1
  let article : String :=
    if truthySeg yaml then String.mk (joinDashes (split.drop 2)) else md
  let headings := getHeadings article
  match frontmatterSchema with
  | none => .ok ⟨article, headings, none⟩
  | some safeParse =>
    match yaml with
    | none => .error .noYaml
    | some y =>
      if y.isEmpty then .error .noYaml
      else
        match getFrontmatter load safeParse (String.mk y) with
        | .ok fm => .ok ⟨article, headings, some fm⟩
        | .error e => .error e

/-- Embeds the shiki-based `processMarkdown`: here the split is guarded by
`shouldProcessFrontmatter = yaml && frontmatterSchema`, so the article is the
whole document unless BOTH a truthy yaml segment and a schema are present;
without that, `frontmatter` is the empty object (modelled `none`). -/
def processMarkdown {Y I V : Type} (load : String → Y)
    (frontmatterSchema : Option (Y → SafeParseResult I V)) (md : String) :
    Except (ProcessError I) (ProcessData V) :=
  let split := splitDashes md
  let yaml := split.get? 1
  let shouldProcessFrontmatter := truthySeg yaml && frontmatterSchema.isSome
  let article : String :=
    if shouldProcessFrontmatter then String.mk (joinDashes (split.drop 2)) else md
  match frontmatterSchema, yaml with
  | some safeParse, some y =>
    if y.isEmpty then .ok ⟨article, getHeadings article, none⟩
    else
      match getFrontmatter load safeParse (String.mk y) with
      | .ok fm => .ok ⟨article, getHeadings article, some fm⟩
      | .error e => .error e
  | _, _ => .ok ⟨article, getHeadings article, none⟩

/-- Embeds the hljs highlight callback's language choice (lines 14–22):
`hljs.getLanguage(lang)` is truthy exactly when `lang` is registered, here
`lang ∈ known`; otherwise `"svelte"` maps to `"html"`, and anything else to
`"plaintext"`. -/
def hljsHighlightLanguage (known : List String) (lang : String) : String :=
  if lang ∈ known then lang
  else if lang = "svelte" then "html"
  else "plaintext"

/-- Embeds the shiki highlight callback's language choice (lines 232–238)
with the default options: the declared language is forwarded unchanged. -/
def shikiHighlightLanguage (lang : String) : String :=
  lang

/-- The fence flag after scanning a list of lines. -/
def fenceState (s : Bool) (ls : List (List Char)) : Bool :=
  ls.foldl (fun st l => if isFenceLine (jsTrim l) then !st else st) s

/-- The number of fence-delimiter lines in a list of lines. -/
def countFences (ls : List (List Char)) : Nat :=
  (ls.filter (fun l => isFenceLine (jsTrim l))).length

/-- Decides whether `needle` occurs at the start of `hay`. -/
def startsWithSeg : List Char → List Char → Bool
  | [], _ => true
  | _ :: _, [] => false
  | a :: as, b :: bs => a = b && startsWithSeg as bs

/-- Decides whether `needle` occurs as a contiguous segment of `hay`. -/
def occursIn (needle : List Char) : List Char → Bool
  | [] => needle.isEmpty
  | c :: rest => startsWithSeg needle (c :: rest) || occursIn needle rest


/-! ## Helper lemmas -/

theorem takeWhile_length_le (p : Char → Bool) : ∀ l : List Char, (l.takeWhile p).length ≤ l.length := by
  intro l
  induction l with
  | nil => simp
  | cons x xs ih =>
    by_cases h : p x
    · simp [List.takeWhile, h, Nat.succ_le_succ ih]
    · simp [List.takeWhile, h]

theorem charToLower_idem_aux :
    ∀ n : Nat, 65 ≤ n → n ≤ 90 →
      ((Char.ofNat n).toLower).toLower = (Char.ofNat n).toLower := by
  intro n h1 h2
  interval_cases n <;> decide

theorem charToLower_eq_self {c : Char} (hc : ¬(65 ≤ c.toNat ∧ c.toNat ≤ 90)) :
    c.toLower = c := by
  show (if c.toNat ≥ 65 ∧ c.toNat ≤ 90 then Char.ofNat (c.toNat + 32) else c) = c
  rw [if_neg hc]

theorem charToLower_idem (c : Char) : c.toLower.toLower = c.toLower := by
  by_cases hc : 65 ≤ c.toNat ∧ c.toNat ≤ 90
  · have := charToLower_idem_aux c.toNat hc.1 hc.2
    rwa [Char.ofNat_toNat] at this
  · simp only [charToLower_eq_self hc]

theorem mem_collapseWsAux {c : Char} :
    ∀ (b : Bool) (l : List Char), c ∈ collapseWsAux b l → c = '-' ∨ c ∈ l := by
  intro b l
  induction l generalizing b with
  | nil => simp [collapseWsAux]
  | cons x xs ih =>
    simp only [collapseWsAux]
    split
    · split
      · intro h
        rcases ih true h with h' | h'
        · exact Or.inl h'
        · exact Or.inr (List.mem_cons_of_mem _ h')
      · intro h
        rcases List.mem_cons.mp h with h' | h'
        · exact Or.inl h'
        · rcases ih true h' with h'' | h''
          · exact Or.inl h''
          · exact Or.inr (List.mem_cons_of_mem _ h'')
    · intro h
      rcases List.mem_cons.mp h with h' | h'
      · exact Or.inr (h' ▸ List.mem_cons_self _ _)
      · rcases ih false h' with h'' | h''
        · exact Or.inl h''
        · exact Or.inr (List.mem_cons_of_mem _ h'')

/-- Every character of the derived id is a word character or a hyphen. -/
theorem mem_slugify_slugChar {c : Char} {l : List Char} (h : c ∈ slugify l) :
    (isWordChar c || c = '-') = true := by
  unfold slugify stripNonWord at h
  exact (List.mem_filter.mp h).2

/-- Every character of the derived id is fixed by lowercasing. -/
theorem mem_slugify_toLower_fix {c : Char} {l : List Char} (h : c ∈ slugify l) :
    c.toLower = c := by
  unfold slugify stripNonWord at h
  have hmem := (List.mem_filter.mp h).1
  rcases mem_collapseWsAux false _ hmem with h' | h'
  · rw [h']; decide
  · unfold jsToLower at h'
    rcases List.mem_map.mp h' with ⟨a, _, rfl⟩
    exact charToLower_idem a

/-- A word character or hyphen is not whitespace. -/
theorem slugChar_not_ws {c : Char} (h : (isWordChar c || c = '-') = true) :
    isJsWs c = false := by
  by_contra hw
  have hw' : isJsWs c = true := by
    cases hws : isJsWs c
    · exact absurd hws hw
    · rfl
  unfold isJsWs at hw'
  simp only [Bool.or_eq_true, decide_eq_true_eq] at hw'
  rcases hw' with ((((h1 | h1) | h1) | h1) | h1) | h1 <;>
    · subst h1; exact absurd h (by decide)

theorem dropWhile_eq_self_of_all {p : Char → Bool} :
    ∀ {l : List Char}, (∀ c ∈ l, p c = false) → l.dropWhile p = l := by
  intro l h
  cases l with
  | nil => rfl
  | cons x xs =>
    rw [List.dropWhile_cons_of_neg]
    simp [h x (List.mem_cons_self x xs)]

theorem jsTrim_eq_self {l : List Char} (h : ∀ c ∈ l, isJsWs c = false) :
    jsTrim l = l := by
  unfold jsTrim
  rw [dropWhile_eq_self_of_all h]
  rw [dropWhile_eq_self_of_all (fun c hc => h c (List.mem_reverse.mp hc))]
  exact List.reverse_reverse l

theorem map_eq_self_of_all {f : Char → Char} :
    ∀ {l : List Char}, (∀ c ∈ l, f c = c) → l.map f = l := by
  intro l h
  induction l with
  | nil => rfl
  | cons x xs ih =>
    simp only [List.map_cons]
    rw [h x (List.mem_cons_self x xs), ih (fun c hc => h c (List.mem_cons_of_mem _ hc))]

theorem collapseWsAux_eq_self {l : List Char} (h : ∀ c ∈ l, isJsWs c = false) :
    collapseWsAux false l = l := by
  induction l with
  | nil => rfl
  | cons x xs ih =>
    unfold collapseWsAux
    rw [if_neg]
    · rw [ih (fun c hc => h c (List.mem_cons_of_mem _ hc))]
    · simp [h x (List.mem_cons_self x xs)]

/-- The id derivation is idempotent. -/
theorem slugify_idem (l : List Char) : slugify (slugify l) = slugify l := by
  have hchar : ∀ c ∈ slugify l, (isWordChar c || c = '-') = true :=
    fun c hc => mem_slugify_slugChar hc
  have hws : ∀ c ∈ slugify l, isJsWs c = false :=
    fun c hc => slugChar_not_ws (hchar c hc)
  conv_lhs => rw [slugify]
  rw [jsTrim_eq_self hws]
  rw [show jsToLower (slugify l) = slugify l from
    map_eq_self_of_all (fun c hc => mem_slugify_toLower_fix hc)]
  rw [collapseWsAux_eq_self hws]
  unfold stripNonWord
  exact List.filter_eq_self.mpr hchar

/-- A successful heading match has level between 1 and 6 and a nonempty name. -/
theorem headingOf_bounds {t : List Char} {lv : Nat} {nm : List Char}
    (h : headingOf t = some (lv, nm)) :
    1 ≤ lv ∧ lv ≤ 6 ∧ nm ≠ [] := by
  unfold headingOf at h
  by_cases hk : (t.takeWhile (fun c => c = '#')).length = 0
  · simp [hk] at h
  · rw [if_neg hk] at h
    simp only at h
    by_cases hr : (t.drop (min (t.takeWhile (fun c => c = '#')).length 6)).isEmpty
    · rw [if_pos hr] at h
      by_cases h2 : 2 ≤ (t.takeWhile (fun c => c = '#')).length
      · rw [if_pos h2] at h
        have hinj := Option.some.inj h
        have hlv : lv = (t.takeWhile (fun c => c = '#')).length - 1 := (Prod.mk.injEq _ _ _ _ ▸ hinj).1.symm
        have hnm : nm = ['#'] := (Prod.mk.injEq _ _ _ _ ▸ hinj).2.symm
        have hlen : t.length ≤ min (t.takeWhile (fun c => c = '#')).length 6 := by
          rw [List.isEmpty_iff] at hr
          exact List.drop_eq_nil_iff.mp hr
        have htw : (t.takeWhile (fun c => c = '#')).length ≤ t.length :=
          takeWhile_length_le _ t
        refine ⟨?_, ?_, by simp [hnm]⟩
        · omega
        · have : min (t.takeWhile (fun c => c = '#')).length 6 ≤ 6 := Nat.min_le_right _ _
          omega
      · rw [if_neg h2] at h
        exact absurd h (by simp)
    · rw [if_neg hr] at h
      have hinj := Option.some.inj h
      have hlv : lv = min (t.takeWhile (fun c => c = '#')).length 6 := (Prod.mk.injEq _ _ _ _ ▸ hinj).1.symm
      have hnm := (Prod.mk.injEq _ _ _ _ ▸ hinj).2.symm
      set r := t.drop (min (t.takeWhile (fun c => c = '#')).length 6) with hrdef
      have hrne : r ≠ [] := by
        intro hnil
        rw [hnil] at hr
        exact hr rfl
      have hrlen : 1 ≤ r.length := List.length_pos.mpr hrne
      refine ⟨?_, ?_, ?_⟩
      · have : 1 ≤ (t.takeWhile (fun c => c = '#')).length := Nat.one_le_iff_ne_zero.mpr hk
        have := Nat.min_le_right (t.takeWhile (fun c => c = '#')).length 6
        have := Nat.le_min.mpr ⟨this, Nat.le_refl _⟩
        omega
      · have := Nat.min_le_right (t.takeWhile (fun c => c = '#')).length 6
        omega
      · rw [hnm]
        intro hnil
        have := List.drop_eq_nil_iff.mp hnil
        have hmin : min (r.takeWhile isJsWs).length (r.length - 1) ≤ r.length - 1 :=
          Nat.min_le_right _ _
        omega

/-- Every heading produced by the scanning loop satisfies the level, name and
id-charset invariants. -/
theorem scanAux_invariant :
    ∀ (s : Bool) (ls : List (List Char)) (h : Heading), h ∈ scanAux s ls →
      1 ≤ h.level ∧ h.level ≤ 6 ∧ h.name ≠ "" ∧
        ∀ c ∈ h.id.data, (isWordChar c || c = '-') = true := by
  intro s ls
  induction ls generalizing s with
  | nil => intro h hmem; simp [scanAux] at hmem
  | cons line rest ih =>
    intro h hmem
    unfold scanAux at hmem
    by_cases hf : isFenceLine (jsTrim line)
    · rw [if_pos hf] at hmem
      exact ih (!s) h hmem
    · rw [if_neg hf] at hmem
      by_cases hs : s
      · rw [if_pos hs] at hmem
        exact ih s h hmem
      · rw [if_neg hs] at hmem
        cases hh : headingOf (jsTrim line) with
        | none =>
          rw [hh] at hmem
          exact ih s h hmem
        | some p =>
          rw [hh] at hmem
          obtain ⟨lv, nm⟩ := p
          simp only at hmem
          by_cases hg : (lv != 0 && !nm.isEmpty) = true
          · rw [if_pos hg] at hmem
            rcases List.mem_cons.mp hmem with h' | h'
            · subst h'
              obtain ⟨h1, h2, h3⟩ := headingOf_bounds hh
              refine ⟨h1, h2, ?_, ?_⟩
              · intro hempty
                have : nm = [] := by
                  have := congrArg String.data hempty
                  simpa using this
                exact h3 this
              · intro c hc
                simp only [String.data] at hc
                exact mem_slugify_slugChar hc
            · exact ih s h h'
          · rw [if_neg hg] at hmem
            exact ih s h hmem

theorem scanAux_cons (s : Bool) (line : List Char) (rest : List (List Char)) :
    scanAux s (line :: rest) =
      (if isFenceLine (jsTrim line) then scanAux (!s) rest
       else if s then scanAux s rest
       else
         match headingOf (jsTrim line) with
         | some (level, name) =>
           if level != 0 && !name.isEmpty then
             ⟨String.mk (slugify name), level, String.mk name⟩ :: scanAux s rest
           else scanAux s rest
         | none => scanAux s rest) := rfl

theorem fenceState_cons (s : Bool) (line : List Char) (rest : List (List Char)) :
    fenceState s (line :: rest) =
      fenceState (if isFenceLine (jsTrim line) then !s else s) rest := rfl

/-- Scanning a concatenation scans the parts in sequence, threading the
fence flag. -/
theorem scanAux_append :
    ∀ (a b : List (List Char)) (s : Bool),
      scanAux s (a ++ b) = scanAux s a ++ scanAux (fenceState s a) b := by
  intro a
  induction a with
  | nil => intro b s; rfl
  | cons line rest ih =>
    intro b s
    rw [List.cons_append, scanAux_cons, scanAux_cons, fenceState_cons]
    by_cases hf : isFenceLine (jsTrim line)
    · rw [if_pos hf, if_pos hf, if_pos hf, ih]
    · rw [if_neg hf, if_neg hf, if_neg hf]
      by_cases hs : s
      · rw [if_pos hs, if_pos hs, ih]
      · rw [if_neg hs, if_neg hs]
        cases hh : headingOf (jsTrim line) with
        | none => simp only [hh]; rw [ih]
        | some p =>
          obtain ⟨lv, nm⟩ := p
          simp only [hh]
          by_cases hg : (lv != 0 && !nm.isEmpty) = true
          · rw [if_pos hg, if_pos hg, ih, List.cons_append]
          · rw [if_neg hg, if_neg hg, ih]

/-- Scanning fence-free lines with the flag set yields nothing. -/
theorem scanAux_true_of_no_fence :
    ∀ (ls : List (List Char)), (∀ l ∈ ls, isFenceLine (jsTrim l) = false) →
      scanAux true ls = [] := by
  intro ls h
  induction ls with
  | nil => rfl
  | cons line rest ih =>
    rw [scanAux_cons, if_neg, if_pos rfl]
    · exact ih (fun l hl => h l (List.mem_cons_of_mem _ hl))
    · simp [h line (List.mem_cons_self _ _)]

/-- The fence flag equals the starting flag toggled by the parity of the
number of fence lines. -/
theorem fenceState_eq :
    ∀ (ls : List (List Char)) (s : Bool),
      fenceState s ls = if countFences ls % 2 = 1 then !s else s := by
  intro ls
  induction ls with
  | nil => intro s; simp [fenceState, countFences]
  | cons line rest ih =>
    intro s
    rw [fenceState_cons]
    by_cases hf : isFenceLine (jsTrim line)
    · rw [if_pos hf, ih]
      have hcount : countFences (line :: rest) = countFences rest + 1 := by
        unfold countFences
        rw [List.filter_cons_of_pos (by simpa using hf)]
        simp
      rw [hcount]
      rcases Nat.mod_two_eq_zero_or_one (countFences rest) with h | h <;>
        simp [h, Nat.add_mod]
    · rw [if_neg hf, ih]
      have hcount : countFences (line :: rest) = countFences rest := by
        unfold countFences
        rw [List.filter_cons_of_neg (by simpa using hf)]
      rw [hcount]

/-- With an odd number of fence lines, the flag ends up flipped. -/
theorem fenceState_odd (ls : List (List Char)) (h : Odd (countFences ls)) :
    fenceState false ls = true := by
  rw [fenceState_eq]
  rw [if_pos (Nat.odd_iff.mp h)]
  rfl

/-! ## Claims -/

/-- Claim C5: scanning the four-line document returns exactly the one heading
outside the fence, and heading-like lines inside a fenced region (scanned
with the fence flag set, over fence-free lines) are never returned. -/
theorem claim5_fenced_headings_skipped :
    getHeadings "```\n# not a heading\n```\n# real\n" = [⟨"real", 1, "real"⟩] ∧
    ∀ ls : List (List Char), (∀ l ∈ ls, isFenceLine (jsTrim l) = false) →
      scanAux true ls = [] :=
  ⟨by decide, scanAux_true_of_no_fence⟩

/-- Witness for C5: a heading line scanned inside a fence yields nothing. -/
theorem claim5_witness : scanAux true [['#', 'a']] = [] :=
  claim5_fenced_headings_skipped.2 [['#', 'a']] (by decide)

/-- Claim C6: the id derivation maps "Hello, World!" to "hello-world", is
idempotent, and two headings named "Dup" both get id "dup" and both appear
in document order. -/
theorem claim6_id_derivation :
    slugifyStr "Hello, World!" = "hello-world" ∧
    (∀ s : String, slugifyStr (slugifyStr s) = slugifyStr s) ∧
    getHeadings "# Dup\n# Dup" = [⟨"dup", 1, "Dup"⟩, ⟨"dup", 1, "Dup"⟩] := by
  refine ⟨by decide, ?_, by decide⟩
  intro s
  exact congrArg String.mk (slugify_idem s.data)

/-- Claim C9: every scanned heading has level 1–6, a nonempty name, and an id
of word characters and hyphens only; a line of seven hashes yields level 6
with the seventh hash folded into the name. -/
theorem claim9_heading_invariants :
    (∀ (md : String) (h : Heading), h ∈ getHeadings md →
      1 ≤ h.level ∧ h.level ≤ 6 ∧ h.name ≠ "" ∧
        ∀ c ∈ h.id.data, (isWordChar c || c = '-') = true) ∧
    getHeadings "####### hi" = [⟨"-hi", 6, "# hi"⟩] := by
  refine ⟨?_, by decide⟩
  intro md h hmem
  exact scanAux_invariant false (splitNewlines md) h hmem

/-- Witness for C9: the invariant holds of the heading scanned from "# a". -/
theorem claim9_witness :
    1 ≤ (Heading.mk "a" 1 "a").level ∧ (Heading.mk "a" 1 "a").level ≤ 6 ∧
      (Heading.mk "a" 1 "a").name ≠ "" ∧
      ∀ c ∈ (Heading.mk "a" 1 "a").id.data, (isWordChar c || c = '-') = true :=
  claim9_heading_invariants.1 "# a" ⟨"a", 1, "a"⟩ (by decide)

/-- Claim C10: for the input "intro---meta---body", the text before the first
delimiter appears in neither the metadata segment nor the article. -/
theorem claim10_leading_text_discarded :
    process (fun (_ : String) => (0 : Nat))
        (none : Option (Nat → SafeParseResult Nat Nat)) "intro---meta---body"
      = .ok ⟨"body", [], none⟩ ∧
    (splitDashes "intro---meta---body").get? 1 = some "meta".data ∧
    occursIn "intro".data "meta".data = false ∧
    occursIn "intro".data "body".data = false :=
  ⟨rfl, by decide, by decide, by decide⟩

/-- Counterexample to C4: "svelte" is unknown to the given highlighter yet is
rendered as "html", not as the plain-text language. -/
theorem claim4_counterexample :
    hljsHighlightLanguage ["xml", "css", "javascript", "plaintext"] "svelte" = "html" ∧
    ¬ "svelte" ∈ ["xml", "css", "javascript", "plaintext"] ∧
    ("html" : String) ≠ "plaintext" := by decide

/-- Claim C4 as amended: an unknown language other than "svelte" degrades to
"plaintext", unknown "svelte" maps to "html", and the shiki pipeline forwards
the declared language unchanged. -/
theorem claim4_amended :
    (∀ (known : List String) (lang : String), ¬ lang ∈ known → lang ≠ "svelte" →
      hljsHighlightLanguage known lang = "plaintext") ∧
    (∀ known : List String, ¬ "svelte" ∈ known →
      hljsHighlightLanguage known "svelte" = "html") ∧
    (∀ lang : String, shikiHighlightLanguage lang = lang) := by
  refine ⟨?_, ?_, fun _ => rfl⟩
  · intro known lang h1 h2
    unfold hljsHighlightLanguage
    rw [if_neg h1, if_neg h2]
  · intro known h
    unfold hljsHighlightLanguage
    rw [if_neg h, if_pos rfl]

/-- Witness for C4 (amended): "ruby" unknown to a highlighter knowing only
"xml" degrades to "plaintext". -/
theorem claim4_witness : hljsHighlightLanguage ["xml"] "ruby" = "plaintext" :=
  claim4_amended.1 ["xml"] "ruby" (by decide) (by decide)

/-- Counterexample to C3: "a---b" has exactly one delimiter occurrence
(two split segments), yet processing returns an empty article, not the
document unchanged. -/
theorem claim3_counterexample :
    process (fun (_ : String) => (0 : Nat))
        (none : Option (Nat → SafeParseResult Nat Nat)) "a---b"
      = .ok ⟨"", [], none⟩ ∧
    (splitDashes "a---b").length = 2 ∧
    ("" : String) ≠ "a---b" :=
  ⟨rfl, by decide, by decide⟩

/-- Claim C3 as amended: with exactly one delimiter occurrence, the document
is returned unchanged only when the text after the delimiter is empty;
a nonempty tail is treated as the metadata segment and the article is empty. -/
theorem claim3_amended {Y I V : Type} (load : String → Y) (md : String)
    (a b : List Char) (h : splitDashes md = [a, b]) :
    process load (none : Option (Y → SafeParseResult I V)) md =
      .ok ⟨if b.isEmpty then md else "",
           getHeadings (if b.isEmpty then md else ""), none⟩ := by
  unfold process
  rw [h]
  by_cases hb : b.isEmpty
  · simp [truthySeg, hb]
  · simp [truthySeg, hb, joinDashes]

/-- Witness for C3 (amended): at "a---b" the amended description evaluates
to the empty article. -/
theorem claim3_witness :
    process (fun (_ : String) => (0 : Nat))
        (none : Option (Nat → SafeParseResult Nat Nat)) "a---b"
      = .ok ⟨if (['b'] : List Char).isEmpty then "a---b" else "",
             getHeadings (if (['b'] : List Char).isEmpty then "a---b" else ""), none⟩ :=
  claim3_amended _ "a---b" ['a'] ['b'] (by decide)

/-- Counterexample to C2: a schema is supplied and the document has no
delimiter at all, yet `processMarkdown` returns a success with empty
frontmatter instead of failing. -/
theorem claim2_counterexample :
    processMarkdown (fun (_ : String) => (0 : Nat))
        (some (fun _ => (SafeParseResult.success (0 : Nat) : SafeParseResult Nat Nat)))
        "hello"
      = .ok ⟨"hello", [], none⟩ ∧
    (splitDashes "hello").get? 1 = none :=
  ⟨rfl, by decide⟩

/-- Claim C2 as amended: with a schema and no truthy metadata segment,
`process` fails with the missing-metadata error (returning nothing else),
while `processMarkdown` silently succeeds with empty frontmatter. -/
theorem claim2_amended {Y I V : Type} (load : String → Y)
    (sp : Y → SafeParseResult I V) (md : String)
    (h : truthySeg ((splitDashes md).get? 1) = false) :
    process load (some sp) md = .error .noYaml ∧
    processMarkdown load (some sp) md = .ok ⟨md, getHeadings md, none⟩ := by
  rcases hsp : splitDashes md with _ | ⟨x, _ | ⟨y, rest⟩⟩
  · constructor
    · simp [process, hsp, truthySeg]
    · simp [processMarkdown, hsp, truthySeg]
  · constructor
    · simp [process, hsp, truthySeg]
    · simp [processMarkdown, hsp, truthySeg]
  · rw [hsp] at h
    have hy : y = [] := by
      cases y with
      | nil => rfl
      | cons c cs => exact absurd h (by simp [truthySeg])
    subst hy
    constructor
    · simp [process, hsp, truthySeg]
    · simp [processMarkdown, hsp, truthySeg]

/-- Witness for C2 (amended): at the schema-supplied, delimiter-free
document "x" the two behaviors are as described. -/
theorem claim2_witness :
    process (fun (_ : String) => (0 : Nat))
        (some (fun _ => (SafeParseResult.success (0 : Nat) : SafeParseResult Nat Nat)))
        "x" = .error .noYaml ∧
    processMarkdown (fun (_ : String) => (0 : Nat))
        (some (fun _ => (SafeParseResult.success (0 : Nat) : SafeParseResult Nat Nat)))
        "x" = .ok ⟨"x", getHeadings "x", none⟩ :=
  claim2_amended _ _ "x" (by decide)

/-- Counterexample to C1: with no schema supplied, `processMarkdown` returns
the whole document — including the metadata segment "meta" — as the article,
so the split depends on whether a schema was given. -/
theorem claim1_counterexample :
    processMarkdown (fun (_ : String) => (0 : Nat))
        (none : Option (Nat → SafeParseResult Nat Nat)) "---meta---body"
      = .ok ⟨"---meta---body", [], none⟩ ∧
    (splitDashes "---meta---body").get? 1 = some "meta".data ∧
    occursIn "meta".data "---meta---body".data = true :=
  ⟨rfl, by decide, by decide⟩

/-- Claim C1 as amended: for `process` the split is schema-independent (the
schema-free call returns the same article and headings as any successful
schema-supplied call), while `processMarkdown` with no schema never splits,
returning the whole document as the article. -/
theorem claim1_amended {Y I V : Type} (load : String → Y)
    (sp : Y → SafeParseResult I V) (md : String) :
    (∀ d : ProcessData V, process load (some sp) md = .ok d →
      process load (none : Option (Y → SafeParseResult I V)) md
        = .ok ⟨d.article, d.headings, none⟩) ∧
    processMarkdown load (none : Option (Y → SafeParseResult I V)) md
      = .ok ⟨md, getHeadings md, none⟩ := by
  constructor
  · intro d hd
    rcases hsp : splitDashes md with _ | ⟨x, _ | ⟨y, rest⟩⟩
    · simp [process, hsp, truthySeg] at hd
    · simp [process, hsp, truthySeg] at hd
    · cases y with
      | nil => simp [process, hsp, truthySeg] at hd
      | cons c cs =>
        rcases hf : getFrontmatter load sp (String.mk (c :: cs)) with e | fm
        · simp [process, hsp, truthySeg, hf] at hd
        · simp [process, hsp, truthySeg, hf] at hd
          subst hd
          simp [process, hsp, truthySeg]
  · simp [processMarkdown, truthySeg]

/-- Witness for C1 (amended): on "---a---b" the schema-free `process` call
returns the article of the successful schema-supplied call. -/
theorem claim1_witness :
    process (fun (_ : String) => (0 : Nat))
        (none : Option (Nat → SafeParseResult Nat Nat)) "---a---b"
      = .ok ⟨(ProcessData.mk "b" [] (some 5)).article,
             (ProcessData.mk "b" [] (some 5)).headings, none⟩ :=
  (claim1_amended (fun (_ : String) => (0 : Nat))
      (fun _ => (SafeParseResult.success (5 : Nat) : SafeParseResult Nat Nat))
      "---a---b").1 ⟨"b", [], some 5⟩ rfl

/-- Claim C7: when the decoded metadata fails validation with a nonempty
issue list, `getFrontmatter` (and with it the whole `process` call) fails
with the validation error carrying exactly the first issue. -/
theorem claim7_validation_first_issue {Y I V : Type} (load : String → Y)
    (sp : Y → SafeParseResult I V) (md : String) (y : List Char) (i : I)
    (rest : List I)
    (hy : (splitDashes md).get? 1 = some y) (hne : y.isEmpty = false)
    (hfail : sp (load (String.mk y)) = .failure (i :: rest)) :
    getFrontmatter load sp (String.mk y) = .error (.invalidFrontmatter (some i)) ∧
    process load (some sp) md = .error (.invalidFrontmatter (some i)) := by
  have hgf : getFrontmatter load sp (String.mk y)
      = .error (.invalidFrontmatter (some i)) := by
    unfold getFrontmatter
    rw [hfail]
    rfl
  refine ⟨hgf, ?_⟩
  rcases hsp : splitDashes md with _ | ⟨x, _ | ⟨z, rest2⟩⟩
  · rw [hsp] at hy; exact absurd hy (by simp)
  · rw [hsp] at hy; exact absurd hy (by simp)
  · rw [hsp] at hy
    have hz : z = y := by simpa using hy
    subst hz
    obtain ⟨c, cs, rfl⟩ : ∃ c cs, z = c :: cs := by
      cases z with
      | nil => exact absurd hne (by simp)
      | cons c cs => exact ⟨c, cs, rfl⟩
    simp [process, hsp, truthySeg, hgf]

/-- Witness for C7: a validator reporting issues [42, 7] on "---bad---x"
makes the call fail carrying exactly 42. -/
theorem claim7_witness :
    getFrontmatter (fun (_ : String) => (0 : Nat))
        (fun _ => (SafeParseResult.failure [42, 7] : SafeParseResult Nat Nat))
        (String.mk "bad".data)
      = .error (.invalidFrontmatter (some 42)) ∧
    process (fun (_ : String) => (0 : Nat))
        (some (fun _ => (SafeParseResult.failure [42, 7] : SafeParseResult Nat Nat)))
        "---bad---x"
      = .error (.invalidFrontmatter (some 42)) :=
  claim7_validation_first_issue _ _ "---bad---x" "bad".data 42 [7]
    (by decide) (by decide) rfl

/-- Claim C8: when the region after the last fence-delimiter line is
fence-free and the delimiter count is odd, the scanner's output is exactly
that of the lines up to the region — every remaining line is treated as
inside a fence and contributes nothing, and no error is possible. -/
theorem claim8_unterminated_fence (md : String) (pre suf : List (List Char))
    (hsplit : splitNewlines md = pre ++ suf)
    (hnofence : ∀ l ∈ suf, isFenceLine (jsTrim l) = false)
    (hodd : Odd (countFences pre)) :
    getHeadings md = scanAux false pre := by
  unfold getHeadings
  rw [hsplit, scanAux_append, fenceState_odd pre hodd,
      scanAux_true_of_no_fence suf hnofence, List.append_nil]

/-- Witness for C8: in a document with a single (unterminated) fence
delimiter, the heading after it is suppressed. -/
theorem claim8_witness :
    getHeadings "```\n# x" = scanAux false ["```".data] :=
  claim8_unterminated_fence "```\n# x" ["```".data] ["# x".data]
    (by decide) (by decide) (by decide)
